import Mathlib

/-
Verification of the taxrust query core (src/jsonl_processor/src/main.rs).

Shallow embedding conventions:
* `f64` coordinates are modelled as `ℚ`.  The only place where IEEE
  non-finite values matter (division by zero in `get_precision` and the
  saturating `as i64` cast in `reduce_overplotting`) is modelled explicitly
  by the extended-value type `FVal` below.
* `HashMap` / `HashSet` are modelled as association lists (last insert wins,
  i.e. new entries are consed at the head and lookup takes the first match)
  and `Finset ℤ` respectively.
* `serde_json::Value` is modelled by its JSON serialization `String`, since
  the program only ever calls `to_string()` on it at load time and
  `from_str` on the stored string when assembling a response.
* the fallible load path returns `Except String _`, with the line parsers
  (serde) abstracted as arguments.
-/

namespace Taxrust

/-! ## Association list maps (model of `HashMap` lookup) -/

/-- First-match association lookup; `child_to_parent` and the dictionary
maps cons fresh entries according to the insertion discipline noted at each
construction site, so this models `HashMap::get`. -/
def alookup {α β : Type} [DecidableEq α] (k : α) : List (α × β) → Option β
  | [] => none
  | p :: t => if p.1 = k then some p.2 else alookup k t

theorem alookup_mem {α β : Type} [DecidableEq α] {k : α} {v : β} :
    ∀ {l : List (α × β)}, alookup k l = some v → (k, v) ∈ l := by
  intro l
  induction l with
  | nil => intro h; simp [alookup] at h
  | cons p t ih =>
    intro h
    by_cases hk : p.1 = k
    · simp only [alookup, hk, if_pos] at h
      cases h
      cases p
      cases hk
      exact List.mem_cons_self _ _
    · simp only [alookup, hk, if_neg, not_false_iff] at h
      exact List.mem_cons_of_mem _ (ih h)

theorem alookup_append {α β : Type} [DecidableEq α] (k : α) (l₁ l₂ : List (α × β)) :
    alookup k (l₁ ++ l₂) =
      match alookup k l₁ with
      | some v => some v
      | none => alookup k l₂ := by
  induction l₁ with
  | nil => simp [alookup]
  | cons p t ih =>
    by_cases hk : p.1 = k
    · simp [alookup, hk]
    · simp [alookup, hk, ih]

theorem alookup_eq_of_mem_nodup {α β : Type} [DecidableEq α] {k : α} {v : β} :
    ∀ {l : List (α × β)}, (l.map Prod.fst).Nodup → (k, v) ∈ l → alookup k l = some v := by
  intro l
  induction l with
  | nil => intro _ h; simp at h
  | cons p t ih =>
    intro hnd hm
    rcases List.mem_cons.mp hm with h | h
    · cases h
      simp [alookup]
    · have hk : p.1 ≠ k := by
        intro hc
        have : k ∈ t.map Prod.fst := List.mem_map.mpr ⟨(k, v), h, rfl⟩
        rw [List.map_cons] at hnd
        exact (List.nodup_cons.mp hnd).1 (hc ▸ this)
      simp only [alookup, hk, if_neg, not_false_iff]
      exact ih (List.nodup_cons.mp (List.map_cons _ _ _ ▸ hnd)).2 h

/-! ## Data model -/

/-- Model of struct `Node` (main.rs lines 92-103).  `meta` values are the
per-field dictionary codes, `-1` denoting absence. -/
structure Node where
  name : String
  x_dist : ℚ
  y : ℚ
  mutations : List ℤ
  parent_id : ℤ
  node_id : ℤ
  num_tips : ℤ
  clades : List (String × String)
  meta : List ℤ
deriving DecidableEq, Inhabited

/-- Model of struct `InitialNode` (main.rs lines 78-90); the flattened
`meta : HashMap<String, Value>` becomes an association list from field name
to the field value's JSON serialization. -/
structure InitialNode where
  name : String
  x_dist : ℚ
  y : ℚ
  mutations : List ℤ
  parent_id : ℤ
  node_id : ℤ
  num_tips : ℤ
  clades : List (String × String)
  meta : List (String × String)
deriving DecidableEq, Inhabited

/-! ## Viewport filter (main.rs lines 342-348) -/

/-- `filter_nodes`: indices of nodes whose `y` lies in `[min_y, max_y]`,
inclusive on both ends, in storage order. -/
def filter_nodes (nodes : List Node) (min_y max_y : ℚ) : List ℕ :=
  (List.range nodes.length).filter
    (fun i => min_y ≤ (nodes.getD i default).y ∧ (nodes.getD i default).y ≤ max_y)

/-- Model of `iter().min_by(partial order compare)` over a list of finite
values: `none` on the empty list, otherwise the minimum. -/
def minimumOf : List ℚ → Option ℚ
  | [] => none
  | x :: xs => some (xs.foldl min x)

/-- Model of `iter().max_by(...)`. -/
def maximumOf : List ℚ → Option ℚ
  | [] => none
  | x :: xs => some (xs.foldl max x)

/-- Default for an omitted `min_y` (main.rs line 280):
the dataset's minimum `y`, or `0.0` for an empty store. -/
def dataMinY (nodes : List Node) : ℚ := (minimumOf (nodes.map (fun n => n.y))).getD 0

/-- Default for an omitted `max_y` (main.rs line 281). -/
def dataMaxY (nodes : List Node) : ℚ := (maximumOf (nodes.map (fun n => n.y))).getD 0

/-- Default for an omitted `min_x` (main.rs line 282). -/
def dataMinX (nodes : List Node) : ℚ := (minimumOf (nodes.map (fun n => n.x_dist))).getD 0

/-- Default for an omitted `max_x` (main.rs line 283). -/
def dataMaxX (nodes : List Node) : ℚ := (maximumOf (nodes.map (fun n => n.x_dist))).getD 0

/-! ## Precision and grid keys (main.rs lines 350-371)

`get_precision` divides by `max - min` with no clamping, so the degenerate
viewport produces an IEEE infinity; `(x * precision).round() as i64` then
goes through `f64::round` (half away from zero) and the saturating `as`
cast.  `FVal` models exactly the f64 values reachable here: a finite value
(as an exact rational) or `+inf` / `-inf` / `NaN`. -/

/-- Extended value: the possible results of `2000.0 / (max - min)` and its
products, covering the IEEE non-finite cases. -/
inductive FVal where
  | fin (q : ℚ)
  | pinf
  | ninf
  | nan
deriving DecidableEq

/-- `f64::round`: nearest integer, ties away from zero. -/
def roundAway (q : ℚ) : ℤ :=
  if 0 ≤ q then ⌊q + 1 / 2⌋ else -⌊-q + 1 / 2⌋

/-- `i64::MAX`. -/
def i64max : ℤ := 2 ^ 63 - 1

/-- `i64::MIN`. -/
def i64min : ℤ := -(2 ^ 63)

/-- Saturating `as i64` cast of a finite rounded value. -/
def satCast (z : ℤ) : ℤ := max i64min (min z i64max)

/-- `get_precision` (main.rs lines 350-352): `2000.0 / (max - min)`.
When `max = min` the f64 division yields `+inf` (the operands are finite and
`max - min` is `+0.0`); there is no epsilon clamp in the code. -/
def get_precision (mn mx : ℚ) : FVal :=
  if mx - mn = 0 then FVal.pinf else FVal.fin (2000 / (mx - mn))

/-- The `precision_x / 5.0` step (main.rs line 357). -/
def fdiv5 : FVal → FVal
  | .fin q => .fin (q / 5)
  | .pinf => .pinf
  | .ninf => .ninf
  | .nan => .nan

/-- `(coord * precision).round() as i64` including the IEEE special cases:
`±inf * x` is `±inf` for positive `x`, flips sign for negative `x`, and is
`NaN` for `x = 0`; `f64::round` fixes non-finite values; `as i64` saturates
infinities to `i64::MIN/MAX` and maps `NaN` to `0`. -/
def mulRoundSat (x : ℚ) (p : FVal) : ℤ :=
  match p with
  | .fin q => satCast (roundAway (x * q))
  | .pinf => if 0 < x then i64max else if x < 0 then i64min else 0
  | .ninf => if 0 < x then i64min else if x < 0 then i64max else 0
  | .nan => 0

/-- The grid-cell key of candidate index `idx`
(main.rs lines 360-363); the `x_type` conditional reads `x_dist` in both
branches, exactly as in the source. -/
def cellKey (all : List Node) (px py : FVal) (xt : String) (idx : ℕ) : ℤ × ℤ :=
  (mulRoundSat (if xt = "x_dist" then (all.getD idx default).x_dist
                else (all.getD idx default).x_dist) (fdiv5 px),
   mulRoundSat (all.getD idx default).y py)

/-- The filtering loop of `reduce_overplotting` (main.rs lines 359-368): the
seen-set is keyed by the full cell pair, modelling the nested
`HashMap<i64, HashSet<i64>>` (the pair `(rx, ry)` is in the model set iff
`ry` is in the HashSet stored under `rx`); `insert` is performed whether or
not the key was already present (a no-op when present), and the candidate is
retained iff the key was new. -/
def reduceGo (key : ℕ → ℤ × ℤ) : List ℕ → Finset (ℤ × ℤ) → List ℕ
  | [], _ => []
  | i :: t, seen =>
    if key i ∈ seen then reduceGo key t (insert (key i) seen)
    else i :: reduceGo key t (insert (key i) seen)

/-- `reduce_overplotting` (main.rs lines 354-371). -/
def reduce_overplotting (nodes : List ℕ) (precision_x precision_y : FVal)
    (x_type : String) (all_nodes : List Node) : List ℕ :=
  reduceGo (cellKey all_nodes precision_x precision_y x_type) nodes ∅

/-! ## Ancestor closure (main.rs lines 373-407)

The Rust work-list loop is modelled with explicit fuel; `addParentsGo`
returns `none` only when the fuel runs out, and `add_parents_terminates`
below (claim C9) shows that the fuel bound `fuelBound` always suffices, so
the loop terminates.  `to_process` is modelled as a list whose head is the
top of the stack (Rust pushes and pops at the tail of the `Vec`). -/

/-- The set of parent ids stored in `child_to_parent` (the values of the
map); every id the loop can newly insert comes from here. -/
def valuesFinset (c2p : List (ℤ × ℤ)) : Finset ℤ := (c2p.map Prod.snd).toFinset

/-- The work-list loop of `add_parents` (main.rs lines 384-391): pop an id,
look up its parent; a missing entry (root or untracked id) silently ends
that walk; a parent not yet selected is inserted and pushed. -/
def addParentsGo (c2p : List (ℤ × ℤ)) : ℕ → Finset ℤ → List ℤ → Option (Finset ℤ)
  | _, sel, [] => some sel
  | 0, _, _ :: _ => none
  | fuel + 1, sel, id :: rest =>
    match alookup id c2p with
    | none => addParentsGo c2p fuel sel rest
    | some p =>
      if p ∈ sel then addParentsGo c2p fuel sel rest
      else addParentsGo c2p fuel (insert p sel) (p :: rest)

/-- Sufficient fuel for `addParentsGo`: one step per initial work-list entry
plus one per distinct parent id that can ever be inserted. -/
def fuelBound (c2p : List (ℤ × ℤ)) (l : List ℤ) : ℕ :=
  l.length + (valuesFinset c2p).card

/-- Run the work-list loop to completion from a selected set and an
enumeration `l` of it; total because `fuelBound` suffices. -/
def addParentsRun (c2p : List (ℤ × ℤ)) (sel : Finset ℤ) (l : List ℤ) : Finset ℤ :=
  (addParentsGo c2p (fuelBound c2p l) sel l).getD sel

/-- `add_parents` (main.rs lines 373-407): seed the selected set with the
`node_id`s of the filtered indices, close it upward, then emit the indices
of all nodes whose id is selected, by a scan in storage order.  The seed
work-list here is the raw id list, which enumerates exactly the elements of
the seed set; by claim C4 any enumeration of the seed set yields the same
selected set, so the unspecified `HashSet` iteration order of the source is
irrelevant. -/
def add_parents (all_nodes : List Node) (c2p : List (ℤ × ℤ)) (filtered : List ℕ) : List ℕ :=
  let ids := filtered.map (fun i => (all_nodes.getD i default).node_id)
  let sel := addParentsRun c2p ids.toFinset ids
  (List.range all_nodes.length).filter (fun i => (all_nodes.getD i default).node_id ∈ sel)

/-! ## Load phase (main.rs lines 129-222) -/

/-- One dictionary-encoding step (main.rs lines 170-172):
`metadata_maps[i].entry(value_str).or_insert(len)` where `len` is the map's
size before the insertion; a fresh value is appended with the next
sequential code. -/
def encodeVal (m : List (String × ℤ)) (s : String) : ℤ × List (String × ℤ) :=
  match alookup s m with
  | some c => (c, m)
  | none => ((m.length : ℤ), m ++ [(s, (m.length : ℤ))])

/-- The per-record meta-encoding loop (main.rs lines 167-177): walk the
slated keys in column order, each with its own dictionary map; a present
field is encoded, an absent one records `-1`. -/
def encodeMeta (keys : List String) (maps : List (List (String × ℤ)))
    (rm : List (String × String)) : List ℤ × List (List (String × ℤ)) :=
  match keys, maps with
  | [], ms => ([], ms)
  | _ :: _, [] => ([], [])
  | k :: ks, m :: ms =>
    match alookup k rm with
    | some v =>
      let r := encodeVal m v
      let rest := encodeMeta ks ms rm
      (r.1 :: rest.1, r.2 :: rest.2)
    | none =>
      let rest := encodeMeta ks ms rm
      (-1 :: rest.1, m :: rest.2)

/-- Intermediate state of the load loop. -/
structure LoadState where
  nodes : List Node
  child_to_parent : List (ℤ × ℤ)
  root_mutations : List ℤ
  root_id : ℤ
  metadata_maps : List (List (String × ℤ))
deriving DecidableEq, Inhabited

/-- One iteration of the node-processing loop (main.rs lines 154-205):
encode the record's slated fields, special-case the root
(`parent_id == node_id`: capture `root_mutations`/`root_id`, clear the
node's own mutation list, add nothing to `child_to_parent`), otherwise
record the `(node_id, parent_id)` edge; `HashMap::insert` overwrites, which
the cons-plus-first-match lookup reproduces. -/
def loadStep (keys : List String) (st : LoadState) (r : InitialNode) : LoadState :=
  let e := encodeMeta keys st.metadata_maps r.meta
  if r.parent_id = r.node_id then
    { nodes := st.nodes ++
        [{ name := r.name, x_dist := r.x_dist, y := r.y, mutations := [],
           parent_id := r.parent_id, node_id := r.node_id, num_tips := r.num_tips,
           clades := r.clades, meta := e.1 }],
      child_to_parent := st.child_to_parent,
      root_mutations := r.mutations,
      root_id := r.node_id,
      metadata_maps := e.2 }
  else
    { nodes := st.nodes ++
        [{ name := r.name, x_dist := r.x_dist, y := r.y, mutations := r.mutations,
           parent_id := r.parent_id, node_id := r.node_id, num_tips := r.num_tips,
           clades := r.clades, meta := e.1 }],
      child_to_parent := (r.node_id, r.parent_id) :: st.child_to_parent,
      root_mutations := st.root_mutations,
      root_id := st.root_id,
      metadata_maps := e.2 }

/-- Invert one dictionary map (main.rs lines 207-210). -/
def invertMap (m : List (String × ℤ)) : List (ℤ × String) :=
  m.map (fun p => (p.2, p.1))

/-- The built node store: the fields of `AppState` produced by `load_data`
(main.rs lines 105-113 and 129-213). -/
structure Store where
  nodes : List Node
  child_to_parent : List (ℤ × ℤ)
  root_mutations : List ℤ
  root_id : ℤ
  metadata_maps : List (List (ℤ × String))
  metadata_keys : List String
deriving DecidableEq, Inhabited

/-- The state at the start of the node-processing loop (main.rs lines
144-151, 158-161): no nodes, no edges, and one empty dictionary per slated
key. -/
def initState (keys : List String) : LoadState :=
  { nodes := [], child_to_parent := [], root_mutations := [], root_id := 0,
    metadata_maps := List.replicate keys.length [] }

/-- The node-processing phase of `load_data` over already-parsed records
(main.rs lines 144-212).  The first record fixes the slate of interned
field names and one empty dictionary per field (lines 158-161); every
record, the first included, then flows through `loadStep`; at the end the
dictionaries are inverted to code-to-string maps. -/
def buildStore (recs : List InitialNode) : Store :=
  match recs with
  | [] => { nodes := [], child_to_parent := [], root_mutations := [], root_id := 0,
            metadata_maps := [], metadata_keys := [] }
  | r0 :: _ =>
    let keys := r0.meta.map Prod.fst
    let st := recs.foldl (loadStep keys) (initState keys)
    { nodes := st.nodes, child_to_parent := st.child_to_parent,
      root_mutations := st.root_mutations, root_id := st.root_id,
      metadata_maps := st.metadata_maps.map invertMap,
      metadata_keys := keys }

/-- `true` iff an `Except` value is `ok`. -/
def exOk {ε : Type} {β : Type} : Except ε β → Bool
  | .ok _ => true
  | .error _ => false

/-- The node-line parsing loop of `load_data` (main.rs lines 154-156):
parse each remaining line in order, aborting with the first error. -/
def parseNodes (pn : String → Except String InitialNode) :
    List String → Except String (List InitialNode)
  | [] => .ok []
  | l :: t =>
    match pn l with
    | .error e => .error e
    | .ok r =>
      match parseNodes pn t with
      | .error e => .error e
      | .ok rs => .ok (r :: rs)

/-- `load_data` (main.rs lines 129-213) with the line-level serde parsers
abstracted as arguments: an empty stream is the error `"Empty file"`
(line 141); the first line must parse as metadata; every further line must
parse as a node record; on success the store is built from all parsed
records.  (The source interleaves parsing and store building; the final
result is the same and either all records are consumed or an error is
returned with no store.) -/
def load_data {α : Type} (pm : String → Except String α)
    (pn : String → Except String InitialNode) (lines : List String) :
    Except String (α × Store) :=
  match lines with
  | [] => .error "Empty file"
  | ml :: rest =>
    match pm ml with
    | .error e => .error e
    | .ok md =>
      match parseNodes pn rest with
      | .error e => .error e
      | .ok recs => .ok (md, buildStore recs)

/-- `scale_y_coordinates` (main.rs lines 215-222): rescale every `y` by
`2400 / (n > 10000 ? n : n * 0.6666)` and round to six decimals
(f64 `round`, ties away from zero). -/
def scale_y_coordinates (nodes : List Node) : List Node :=
  let n := nodes.length
  let scale_y : ℚ := 2400 / (if n > 10000 then (n : ℚ) else (n : ℚ) * (6666 / 10000))
  nodes.map (fun nd => { nd with y := (roundAway (nd.y * scale_y * 1000000) : ℚ) / 1000000 })

/-- The `/nodes/` query pipeline (main.rs lines 270-340) up to the response
index list: resolve defaulted bounds, viewport-filter, keep leaves
(`num_tips == 1`), reduce overplotting with the bounds-derived precisions,
and close under ancestors.  The response records are a pointwise function
of these indices, so the emitted sequence is determined by this list. -/
def responseIndices (nodes : List Node) (c2p : List (ℤ × ℤ))
    (qminy qmaxy qminx qmaxx : Option ℚ) (qxtype : Option String) : List ℕ :=
  let min_y := qminy.getD (dataMinY nodes)
  let max_y := qmaxy.getD (dataMaxY nodes)
  let min_x := qminx.getD (dataMinX nodes)
  let max_x := qmaxx.getD (dataMaxX nodes)
  let xt := qxtype.getD "x_dist"
  let filtered := filter_nodes nodes min_y max_y
  let leaves := filtered.filter (fun i => (nodes.getD i default).num_tips = 1)
  let reduced := reduce_overplotting leaves (get_precision min_x max_x)
    (get_precision min_y max_y) xt nodes
  add_parents nodes c2p reduced

/-! ## Reducer lemmas -/

theorem reduceGo_filter (key : ℕ → ℤ × ℤ) (k : ℤ × ℤ) :
    ∀ (l : List ℕ) (seen : Finset (ℤ × ℤ)),
      (reduceGo key l seen).filter (fun i => decide (key i = k)) =
        if k ∈ seen then [] else (l.filter (fun i => decide (key i = k))).take 1 := by
  intro l
  induction l with
  | nil =>
    intro seen
    by_cases h : k ∈ seen <;> simp [reduceGo, h]
  | cons i t ih =>
    intro seen
    simp only [reduceGo]
    by_cases hmem : key i ∈ seen
    · rw [if_pos hmem, ih]
      by_cases hk : k ∈ seen
      · rw [if_pos (Finset.mem_insert_of_mem hk), if_pos hk]
      · have hne : k ≠ key i := fun h => hk (h ▸ hmem)
        have h1 : k ∉ insert (key i) seen := by
          simp [Finset.mem_insert, hne, hk]
        rw [if_neg h1, if_neg hk]
        have h2 : (decide (key i = k)) = false := by simp [Ne.symm hne]
        simp [List.filter_cons, h2]
    · rw [if_neg hmem]
      by_cases hki : key i = k
      · cases hki
        have h1 : key i ∈ insert (key i) seen := Finset.mem_insert_self _ _
        simp [List.filter_cons, ih, h1, hmem]
      · have hne : k ≠ key i := fun h => hki h.symm
        have h2 : (decide (key i = k)) = false := by simp [hki]
        simp only [List.filter_cons, h2, Bool.false_eq_true, if_false, ih]
        have h3 : (k ∈ insert (key i) seen) ↔ k ∈ seen := by
          simp [Finset.mem_insert, hne]
        by_cases hk : k ∈ seen
        · rw [if_pos (h3.mpr hk), if_pos hk]
        · rw [if_neg (fun hc => hk (h3.mp hc)), if_neg hk]

theorem reduceGo_nodup (key : ℕ → ℤ × ℤ) :
    ∀ (l : List ℕ) (seen : Finset (ℤ × ℤ)),
      ((reduceGo key l seen).map key).Nodup ∧
        ∀ j ∈ reduceGo key l seen, key j ∉ seen := by
  intro l
  induction l with
  | nil => intro seen; simp [reduceGo]
  | cons i t ih =>
    intro seen
    by_cases hmem : key i ∈ seen
    · simp only [reduceGo, if_pos hmem]
      refine ⟨(ih _).1, fun j hj => ?_⟩
      intro hc
      exact (ih _).2 j hj (Finset.mem_insert_of_mem hc)
    · simp only [reduceGo, if_neg hmem, List.map_cons, List.nodup_cons]
      refine ⟨⟨?_, (ih _).1⟩, ?_⟩
      · intro hc
        rcases List.mem_map.mp hc with ⟨j, hj, hkey⟩
        exact (ih _).2 j hj (hkey ▸ Finset.mem_insert_self _ _)
      · intro j hj
        rcases List.mem_cons.mp hj with h | h
        · cases h; exact hmem
        · intro hc
          exact (ih _).2 j h (Finset.mem_insert_of_mem hc)

/-- C2: no two node indices retained by `reduce_overplotting` (before
ancestor closure) share a grid-cell key
`(round(x_dist * (precision_x / 5)), round(y * precision_y))` with
`precision = 2000 / (max - min)` on each axis: the retained indices have
pairwise distinct keys, and for every cell the retained sub-list is exactly
the first candidate in storage order that occupies the cell. -/
theorem cell_exclusivity (cands : List ℕ) (min_x max_x min_y max_y : ℚ)
    (x_type : String) (all_nodes : List Node) :
    ((reduce_overplotting cands (get_precision min_x max_x) (get_precision min_y max_y)
        x_type all_nodes).map
      (cellKey all_nodes (get_precision min_x max_x) (get_precision min_y max_y) x_type)).Nodup
    ∧ ∀ k : ℤ × ℤ,
        (reduce_overplotting cands (get_precision min_x max_x) (get_precision min_y max_y)
            x_type all_nodes).filter
          (fun i => decide (cellKey all_nodes (get_precision min_x max_x)
            (get_precision min_y max_y) x_type i = k)) =
        (cands.filter (fun i => decide (cellKey all_nodes (get_precision min_x max_x)
            (get_precision min_y max_y) x_type i = k))).take 1 := by
  constructor
  · exact (reduceGo_nodup _ cands ∅).1
  · intro k
    rw [reduce_overplotting, reduceGo_filter]
    simp

/-! ## Degenerate viewport (claim C3) -/

/-- Concrete leaf at `x_dist = 1, y = 0.3`. -/
def cnA : Node :=
  { name := "a", x_dist := 1, y := 3 / 10, mutations := [], parent_id := 0,
    node_id := 1, num_tips := 1, clades := [], meta := [] }

/-- Concrete leaf at `x_dist = 2, y = 0.4`. -/
def cnB : Node :=
  { name := "b", x_dist := 2, y := 2 / 5, mutations := [], parent_id := 0,
    node_id := 2, num_tips := 1, clades := [], meta := [] }

/-- C3 evidence (code bug): `get_precision` performs no epsilon clamping,
so on a degenerate viewport (`max_x = min_x`) it divides by zero yielding
`+inf`; the saturating cast then sends every candidate with positive
`x_dist` to the same x-cell `i64::MAX`, so distinct candidates collide and
one is dropped — contrary to the claim that precision is clamped so every
point falls in its own cell and no candidate is dropped.  Here the two
distinct leaves `cnA`, `cnB` get the same cell key and the reducer retains
only the first. -/
theorem degenerate_viewport_no_clamp :
    get_precision 0 0 = FVal.pinf
    ∧ cellKey [cnA, cnB] (get_precision 0 0) (get_precision 0 2000) "x_dist" 0 =
        cellKey [cnA, cnB] (get_precision 0 0) (get_precision 0 2000) "x_dist" 1
    ∧ reduce_overplotting [0, 1] (get_precision 0 0) (get_precision 0 2000)
        "x_dist" [cnA, cnB] = [0] := by
  refine ⟨by unfold get_precision; norm_num, ?_, ?_⟩
  · norm_num [cellKey, get_precision, fdiv5, mulRoundSat, satCast, roundAway, cnA, cnB]
  · norm_num [reduce_overplotting, reduceGo, cellKey, get_precision, fdiv5, mulRoundSat,
      satCast, roundAway, cnA, cnB, Finset.mem_insert]

/-! ## Ancestor-closure lemmas -/

theorem alookup_mem_values {c2p : List (ℤ × ℤ)} {id p : ℤ}
    (h : alookup id c2p = some p) : p ∈ valuesFinset c2p := by
  have hm := alookup_mem h
  exact List.mem_toFinset.mpr (List.mem_map.mpr ⟨(id, p), hm, rfl⟩)

theorem addParentsGo_isSome (c2p : List (ℤ × ℤ)) :
    ∀ (fuel : ℕ) (sel : Finset ℤ) (l : List ℤ),
      l.length + ((valuesFinset c2p).filter (fun p => p ∉ sel)).card ≤ fuel →
      (addParentsGo c2p fuel sel l).isSome = true := by
  intro fuel
  induction fuel with
  | zero =>
    intro sel l hle
    have hl : l = [] := by
      cases l with
      | nil => rfl
      | cons a t => simp at hle
    subst hl
    simp [addParentsGo]
  | succ fuel ih =>
    intro sel l hle
    cases l with
    | nil => simp [addParentsGo]
    | cons id rest =>
      simp only [addParentsGo]
      cases halk : alookup id c2p with
      | none =>
        exact ih sel rest (by simp at hle; omega)
      | some p =>
        by_cases hp : p ∈ sel
        · simp only [if_pos hp]
          exact ih sel rest (by simp at hle; omega)
        · simp only [if_neg hp]
          have hpv : p ∈ (valuesFinset c2p).filter (fun q => q ∉ sel) :=
            Finset.mem_filter.mpr ⟨alookup_mem_values halk, hp⟩
          have hcard : ((valuesFinset c2p).filter (fun q => q ∉ insert p sel)).card =
              ((valuesFinset c2p).filter (fun q => q ∉ sel)).card - 1 := by
            have hset : (valuesFinset c2p).filter (fun q => q ∉ insert p sel) =
                ((valuesFinset c2p).filter (fun q => q ∉ sel)).erase p := by
              ext x
              simp only [Finset.mem_filter, Finset.mem_erase, Finset.mem_insert]
              constructor
              · rintro ⟨hx, hnx⟩
                push_neg at hnx
                exact ⟨hnx.1, hx, hnx.2⟩
              · rintro ⟨hne, hx, hns⟩
                refine ⟨hx, ?_⟩
                push_neg
                exact ⟨hne, hns⟩
            rw [hset, Finset.card_erase_of_mem hpv]
          have hpos : 0 < ((valuesFinset c2p).filter (fun q => q ∉ sel)).card :=
            Finset.card_pos.mpr ⟨p, hpv⟩
          apply ih (insert p sel) (p :: rest)
          rw [hcard]
          simp at hle ⊢
          omega

theorem addParentsGo_mono (c2p : List (ℤ × ℤ)) :
    ∀ (fuel : ℕ) (sel : Finset ℤ) (l : List ℤ) (r : Finset ℤ),
      addParentsGo c2p fuel sel l = some r → sel ⊆ r := by
  intro fuel
  induction fuel with
  | zero =>
    intro sel l r h
    cases l with
    | nil => simp [addParentsGo] at h; exact h ▸ Finset.Subset.refl _
    | cons a t => simp [addParentsGo] at h
  | succ fuel ih =>
    intro sel l r h
    cases l with
    | nil => simp [addParentsGo] at h; exact h ▸ Finset.Subset.refl _
    | cons id rest =>
      cases halk : alookup id c2p with
      | none =>
        simp only [addParentsGo, halk] at h
        exact ih sel rest r h
      | some p =>
        by_cases hp : p ∈ sel
        · simp only [addParentsGo, halk, if_pos hp] at h
          exact ih sel rest r h
        · simp only [addParentsGo, halk, if_neg hp] at h
          exact fun x hx => ih _ _ r h (Finset.mem_insert_of_mem hx)

theorem addParentsGo_subset (c2p : List (ℤ × ℤ)) (C : Set ℤ)
    (hC : ∀ id ∈ C, ∀ p, alookup id c2p = some p → p ∈ C) :
    ∀ (fuel : ℕ) (sel : Finset ℤ) (l : List ℤ) (r : Finset ℤ),
      (↑sel : Set ℤ) ⊆ C → (∀ x ∈ l, x ∈ C) →
      addParentsGo c2p fuel sel l = some r → (↑r : Set ℤ) ⊆ C := by
  intro fuel
  induction fuel with
  | zero =>
    intro sel l r hsel _ h
    cases l with
    | nil => simp [addParentsGo] at h; exact h ▸ hsel
    | cons a t => simp [addParentsGo] at h
  | succ fuel ih =>
    intro sel l r hsel hl h
    cases l with
    | nil => simp [addParentsGo] at h; exact h ▸ hsel
    | cons id rest =>
      cases halk : alookup id c2p with
      | none =>
        simp only [addParentsGo, halk] at h
        exact ih sel rest r hsel (fun x hx => hl x (List.mem_cons_of_mem _ hx)) h
      | some p =>
        have hid : id ∈ C := hl id (List.mem_cons_self _ _)
        have hpC : p ∈ C := hC id hid p halk
        by_cases hp : p ∈ sel
        · simp only [addParentsGo, halk, if_pos hp] at h
          exact ih sel rest r hsel (fun x hx => hl x (List.mem_cons_of_mem _ hx)) h
        · simp only [addParentsGo, halk, if_neg hp] at h
          apply ih (insert p sel) (p :: rest) r ?_ ?_ h
          · intro x hx
            rcases Finset.mem_insert.mp hx with hx | hx
            · exact hx ▸ hpC
            · exact hsel hx
          · intro x hx
            rcases List.mem_cons.mp hx with hx | hx
            · exact hx ▸ hpC
            · exact hl x (List.mem_cons_of_mem _ hx)

theorem addParentsGo_closed (c2p : List (ℤ × ℤ)) :
    ∀ (fuel : ℕ) (sel : Finset ℤ) (l : List ℤ) (r : Finset ℤ),
      (∀ id ∈ sel, id ∈ l ∨ ∀ p, alookup id c2p = some p → p ∈ sel) →
      addParentsGo c2p fuel sel l = some r →
      ∀ id ∈ r, ∀ p, alookup id c2p = some p → p ∈ r := by
  intro fuel
  induction fuel with
  | zero =>
    intro sel l r hinv h
    cases l with
    | nil =>
      simp [addParentsGo] at h
      subst h
      intro id hid p hp
      rcases hinv id hid with hl | hcl
      · simp at hl
      · exact hcl p hp
    | cons a t => simp [addParentsGo] at h
  | succ fuel ih =>
    intro sel l r hinv h
    cases l with
    | nil =>
      simp [addParentsGo] at h
      subst h
      intro id hid p hp
      rcases hinv id hid with hl | hcl
      · simp at hl
      · exact hcl p hp
    | cons hd rest =>
      cases halk : alookup hd c2p with
      | none =>
        simp only [addParentsGo, halk] at h
        apply ih sel rest r ?_ h
        intro id hid
        rcases hinv id hid with hl | hcl
        · rcases List.mem_cons.mp hl with he | hm
          · subst he
            right
            intro p hp
            rw [halk] at hp
            cases hp
          · exact Or.inl hm
        · exact Or.inr hcl
      | some p =>
        by_cases hp : p ∈ sel
        · simp only [addParentsGo, halk, if_pos hp] at h
          apply ih sel rest r ?_ h
          intro id hid
          rcases hinv id hid with hl | hcl
          · rcases List.mem_cons.mp hl with he | hm
            · subst he
              right
              intro q hq
              rw [halk] at hq
              cases hq
              exact hp
            · exact Or.inl hm
          · exact Or.inr hcl
        · simp only [addParentsGo, halk, if_neg hp] at h
          apply ih (insert p sel) (p :: rest) r ?_ h
          intro id hid
          rcases Finset.mem_insert.mp hid with he | hm
          · exact Or.inl (he ▸ List.mem_cons_self _ _)
          · rcases hinv id hm with hl | hcl
            · rcases List.mem_cons.mp hl with he' | hm'
              · subst he'
                right
                intro q hq
                rw [halk] at hq
                cases hq
                exact Finset.mem_insert_self _ _
              · exact Or.inl (List.mem_cons_of_mem _ hm')
            · exact Or.inr (fun q hq => Finset.mem_insert_of_mem (hcl q hq))

/-- Reachability upward through `child_to_parent` from a seed set: the
ancestor closure that `add_parents` is meant to compute. -/
inductive Reach (c2p : List (ℤ × ℤ)) (S : Set ℤ) : ℤ → Prop
  | base {x : ℤ} : x ∈ S → Reach c2p S x
  | step {x p : ℤ} : Reach c2p S x → alookup x c2p = some p → Reach c2p S p

theorem addParentsRun_eq_reach (c2p : List (ℤ × ℤ)) (seeds : Finset ℤ) (l : List ℤ)
    (hl : ∀ x : ℤ, x ∈ l ↔ x ∈ seeds) :
    (↑(addParentsRun c2p seeds l) : Set ℤ) = {x : ℤ | Reach c2p (↑seeds) x} := by
  have hsome : (addParentsGo c2p (fuelBound c2p l) seeds l).isSome = true := by
    apply addParentsGo_isSome
    have := Finset.card_filter_le (valuesFinset c2p) (fun p => p ∉ seeds)
    unfold fuelBound
    omega
  rcases Option.isSome_iff_exists.mp hsome with ⟨r, hr⟩
  have hrun : addParentsRun c2p seeds l = r := by
    unfold addParentsRun
    rw [hr]
    rfl
  rw [hrun]
  apply Set.Subset.antisymm
  · apply addParentsGo_subset c2p {x : ℤ | Reach c2p (↑seeds) x} ?_ _ seeds l r ?_ ?_ hr
    · intro id hid p hp
      exact Reach.step hid hp
    · intro x hx
      exact Reach.base hx
    · intro x hx
      exact Reach.base (by simpa using (hl x).mp hx)
  · intro x hx
    have hmono := addParentsGo_mono c2p _ seeds l r hr
    have hclosed := addParentsGo_closed c2p _ seeds l r
      (fun id hid => Or.inl ((hl id).mpr hid)) hr
    induction hx with
    | base hxS => exact hmono (by simpa using hxS)
    | step hx hp ihx => exact hclosed _ ihx _ hp

/-- C9: the `add_parents` work-list loop terminates — with fuel equal to
the initial work-list length plus the number of distinct parent ids in
`child_to_parent` (each id being insertable at most once thanks to the
membership guard), the loop always finishes, for every map, selected set
and work list; a failing lookup (root or untracked id) just stops that
walk. -/
theorem add_parents_terminates (c2p : List (ℤ × ℤ)) (sel : Finset ℤ) (l : List ℤ) :
    (addParentsGo c2p (fuelBound c2p l) sel l).isSome = true := by
  apply addParentsGo_isSome
  have := Finset.card_filter_le (valuesFinset c2p) (fun p => p ∉ sel)
  unfold fuelBound
  omega

/-- Seeds are contained in the closed set computed by the loop, and that
set is closed under parent lookup. -/
theorem addParentsRun_spec (c2p : List (ℤ × ℤ)) (seeds : Finset ℤ) (l : List ℤ)
    (hl : ∀ x : ℤ, x ∈ l ↔ x ∈ seeds) :
    seeds ⊆ addParentsRun c2p seeds l ∧
      ∀ id ∈ addParentsRun c2p seeds l, ∀ p, alookup id c2p = some p →
        p ∈ addParentsRun c2p seeds l := by
  have h := addParentsRun_eq_reach c2p seeds l hl
  constructor
  · intro x hx
    have hx2 : (x : ℤ) ∈ (↑(addParentsRun c2p seeds l) : Set ℤ) := by
      rw [h]
      exact Reach.base (Finset.mem_coe.mpr hx)
    exact Finset.mem_coe.mp hx2
  · intro id hid p hp
    have h1 : (id : ℤ) ∈ (↑(addParentsRun c2p seeds l) : Set ℤ) := Finset.mem_coe.mpr hid
    rw [h] at h1
    have h2 : p ∈ (↑(addParentsRun c2p seeds l) : Set ℤ) := by
      rw [h]
      exact Reach.step h1 hp
    exact Finset.mem_coe.mp h2

/-- C4: the query pipeline is deterministic with a stable response order:
re-running the reducer on the same candidate list and bounds yields the
identical retained list; the closure loop yields the same selected set for
any two work-list enumerations of the seed set (so the unordered-set
iteration order of the source cannot influence the response); and the final
index list of `add_parents` is emitted in strictly increasing storage order
by an index scan. -/
theorem pipeline_determinism (all_nodes : List Node) (c2p : List (ℤ × ℤ))
    (cands filtered : List ℕ) (px py : FVal) (x_type : String)
    (seeds : Finset ℤ) (l₁ l₂ : List ℤ)
    (h₁ : ∀ x : ℤ, x ∈ l₁ ↔ x ∈ seeds) (h₂ : ∀ x : ℤ, x ∈ l₂ ↔ x ∈ seeds) :
    reduce_overplotting cands px py x_type all_nodes =
      reduce_overplotting cands px py x_type all_nodes
    ∧ addParentsRun c2p seeds l₁ = addParentsRun c2p seeds l₂
    ∧ List.Pairwise (· < ·) (add_parents all_nodes c2p filtered) := by
  refine ⟨rfl, ?_, ?_⟩
  · apply Finset.coe_injective
    rw [addParentsRun_eq_reach c2p seeds l₁ h₁, addParentsRun_eq_reach c2p seeds l₂ h₂]
  · unfold add_parents
    exact List.Pairwise.sublist (List.filter_sublist _) (List.pairwise_lt_range _)

/-- Witness for C4 at a concrete store: two opposite enumerations of the
seed set `{1, 2}` give the same closure, and the output scan is increasing. -/
theorem pipeline_determinism_witness :
    addParentsRun [((2 : ℤ), (1 : ℤ)), (1, 0)] {1, 2} [1, 2] =
      addParentsRun [((2 : ℤ), (1 : ℤ)), (1, 0)] {1, 2} [2, 1]
    ∧ List.Pairwise (· < ·) (add_parents [cnA, cnB] [((2 : ℤ), (1 : ℤ)), (1, 0)] [0, 1]) := by
  have h := pipeline_determinism [cnA, cnB] [((2 : ℤ), (1 : ℤ)), (1, 0)] [] [0, 1]
    FVal.nan FVal.nan "x_dist" {1, 2} [1, 2] [2, 1]
    (by intro x; constructor <;> (intro hx; simp at hx ⊢; tauto))
    (by intro x; constructor <;> (intro hx; simp at hx ⊢; tauto))
  exact ⟨h.2.1, h.2.2⟩

/-! ## Load-phase fold lemmas -/

theorem foldl_loadStep_c2p (keys : List String) :
    ∀ (rs : List InitialNode) (st : LoadState),
      (rs.foldl (loadStep keys) st).child_to_parent =
        ((rs.filter (fun r => decide (r.parent_id ≠ r.node_id))).map
          (fun r => (r.node_id, r.parent_id))).reverse ++ st.child_to_parent := by
  intro rs
  induction rs with
  | nil => intro st; simp
  | cons r t ih =>
    intro st
    simp only [List.foldl_cons, List.filter_cons]
    by_cases hr : r.parent_id = r.node_id
    · have hd : (decide (r.parent_id ≠ r.node_id)) = false := by simp [hr]
      rw [hd]
      simp only [Bool.false_eq_true, if_false, ih]
      have hst : (loadStep keys st r).child_to_parent = st.child_to_parent := by
        simp [loadStep, hr]
      rw [hst]
    · have hd : (decide (r.parent_id ≠ r.node_id)) = true := by simp [hr]
      rw [hd]
      simp only [if_true, List.map_cons, List.reverse_cons, ih]
      have hst : (loadStep keys st r).child_to_parent =
          (r.node_id, r.parent_id) :: st.child_to_parent := by
        simp [loadStep, hr]
      rw [hst]
      simp

theorem foldl_loadStep_idpairs (keys : List String) :
    ∀ (rs : List InitialNode) (st : LoadState),
      ((rs.foldl (loadStep keys) st).nodes).map (fun nd => (nd.node_id, nd.parent_id)) =
        st.nodes.map (fun nd => (nd.node_id, nd.parent_id)) ++
          rs.map (fun r => (r.node_id, r.parent_id)) := by
  intro rs
  induction rs with
  | nil => intro st; simp
  | cons r t ih =>
    intro st
    simp only [List.foldl_cons, ih, List.map_cons]
    have hst : (loadStep keys st r).nodes.map (fun nd => (nd.node_id, nd.parent_id)) =
        st.nodes.map (fun nd => (nd.node_id, nd.parent_id)) ++ [(r.node_id, r.parent_id)] := by
      by_cases hr : r.parent_id = r.node_id <;> simp [loadStep, hr]
    rw [hst]
    simp

/-- With pairwise-distinct `node_id`s, `child_to_parent` lookup of a stored
non-root node's id returns exactly that node's `parent_id`. -/
theorem buildStore_c2p_lookup (recs : List InitialNode)
    (huniq : (((buildStore recs).nodes).map (fun nd => nd.node_id)).Nodup)
    {nd : Node} (hmem : nd ∈ (buildStore recs).nodes)
    (hnr : nd.parent_id ≠ nd.node_id) :
    alookup nd.node_id (buildStore recs).child_to_parent = some nd.parent_id := by
  cases recs with
  | nil => simp [buildStore] at hmem
  | cons r0 rs =>
    have hc2p := foldl_loadStep_c2p (r0.meta.map Prod.fst) (r0 :: rs)
      (initState (r0.meta.map Prod.fst))
    have hpairs := foldl_loadStep_idpairs (r0.meta.map Prod.fst) (r0 :: rs)
      (initState (r0.meta.map Prod.fst))
    have hnodes : (buildStore (r0 :: rs)).nodes.map (fun nd => (nd.node_id, nd.parent_id)) =
        (r0 :: rs).map (fun r => (r.node_id, r.parent_id)) := by
      simp only [buildStore]
      rw [hpairs]
      simp [initState]
    have hbc2p : (buildStore (r0 :: rs)).child_to_parent =
        (((r0 :: rs).filter (fun r => decide (r.parent_id ≠ r.node_id))).map
          (fun r => (r.node_id, r.parent_id))).reverse := by
      simp only [buildStore]
      rw [hc2p]
      simp [initState]
    -- the node's id pair occurs among the record id pairs
    have hpairmem : (nd.node_id, nd.parent_id) ∈
        (r0 :: rs).map (fun r => (r.node_id, r.parent_id)) := by
      rw [← hnodes]
      exact List.mem_map.mpr ⟨nd, hmem, rfl⟩
    rcases List.mem_map.mp hpairmem with ⟨r, hrmem, hrpair⟩
    have hrn : r.node_id = nd.node_id := congrArg Prod.fst hrpair
    have hrp : r.parent_id = nd.parent_id := congrArg Prod.snd hrpair
    -- record ids are pairwise distinct
    have hun2 : ((r0 :: rs).map (fun r => r.node_id)).Nodup := by
      have hcomp : ((r0 :: rs).map (fun r => (r.node_id, r.parent_id))).map Prod.fst =
          (r0 :: rs).map (fun r => r.node_id) := by
        rw [List.map_map]
        rfl
      have hcomp2 : ((buildStore (r0 :: rs)).nodes.map
            (fun nd => (nd.node_id, nd.parent_id))).map Prod.fst =
          (buildStore (r0 :: rs)).nodes.map (fun nd => nd.node_id) := by
        rw [List.map_map]
        rfl
      rw [← hcomp, ← hnodes, hcomp2]
      exact huniq
    -- the pair is in child_to_parent
    have hfmem : r ∈ (r0 :: rs).filter (fun r => decide (r.parent_id ≠ r.node_id)) := by
      apply List.mem_filter.mpr
      refine ⟨hrmem, ?_⟩
      simp only [decide_eq_true_eq, hrn, hrp]
      exact hnr
    have hcmem : (nd.node_id, nd.parent_id) ∈ (buildStore (r0 :: rs)).child_to_parent := by
      rw [hbc2p]
      apply List.mem_reverse.mpr
      exact List.mem_map.mpr ⟨r, hfmem, hrpair⟩
    -- child_to_parent keys are pairwise distinct
    have hknodup : ((buildStore (r0 :: rs)).child_to_parent.map Prod.fst).Nodup := by
      rw [hbc2p]
      rw [List.map_reverse, List.nodup_reverse]
      have hmm : (((r0 :: rs).filter (fun r => decide (r.parent_id ≠ r.node_id))).map
            (fun r => (r.node_id, r.parent_id))).map Prod.fst =
          ((r0 :: rs).filter (fun r => decide (r.parent_id ≠ r.node_id))).map
            (fun r => r.node_id) := by
        rw [List.map_map]
        rfl
      rw [hmm]
      exact List.Nodup.sublist
        (List.Sublist.map _ (List.filter_sublist _)) hun2
    exact alookup_eq_of_mem_nodup hknodup hcmem

/-- C1: closure completeness — for every store built by the load loop whose
records carry pairwise-distinct `node_id`s and whose non-root parent ids
are all present, and for every seed index list, every index emitted by
`add_parents` whose node is not the root (`parent_id ≠ node_id`) has some
emitted index carrying its parent's id, so the whole path to the root is
present in the response. -/
theorem closure_completeness (recs : List InitialNode) (seedIdxs : List ℕ)
    (huniq : (((buildStore recs).nodes).map (fun nd => nd.node_id)).Nodup)
    (hpar : ∀ nd ∈ (buildStore recs).nodes, nd.parent_id ≠ nd.node_id →
      ∃ m ∈ (buildStore recs).nodes, m.node_id = nd.parent_id)
    (i : ℕ)
    (hi : i ∈ add_parents (buildStore recs).nodes (buildStore recs).child_to_parent seedIdxs)
    (hnr : ((buildStore recs).nodes.getD i default).parent_id ≠
        ((buildStore recs).nodes.getD i default).node_id) :
    ∃ j ∈ add_parents (buildStore recs).nodes (buildStore recs).child_to_parent seedIdxs,
      ((buildStore recs).nodes.getD j default).node_id =
        ((buildStore recs).nodes.getD i default).parent_id := by
  simp only [add_parents, List.mem_filter, List.mem_range, decide_eq_true_eq] at hi ⊢
  obtain ⟨hilen, hisel⟩ := hi
  have hmem : (buildStore recs).nodes.getD i default ∈ (buildStore recs).nodes := by
    rw [List.getD_eq_getElem _ _ hilen]
    exact List.getElem_mem hilen
  have hlk := buildStore_c2p_lookup recs huniq hmem hnr
  have hspec := addParentsRun_spec (buildStore recs).child_to_parent
    ((seedIdxs.map (fun j => ((buildStore recs).nodes.getD j default).node_id)).toFinset)
    (seedIdxs.map (fun j => ((buildStore recs).nodes.getD j default).node_id))
    (fun x => (List.mem_toFinset).symm)
  have hpar_sel := hspec.2 _ hisel _ hlk
  obtain ⟨m, hmmem, hmid⟩ := hpar _ hmem hnr
  obtain ⟨j, hjlen, hjget⟩ := List.mem_iff_getElem.mp hmmem
  refine ⟨j, ⟨hjlen, ?_⟩, ?_⟩
  · rw [List.getD_eq_getElem _ _ hjlen, hjget, hmid]
    exact hpar_sel
  · rw [List.getD_eq_getElem _ _ hjlen, hjget, hmid]

/-- Concrete record with the given ids and empty payload. -/
def wrec (nid pid : ℤ) : InitialNode :=
  { name := "", x_dist := 0, y := 0, mutations := [], parent_id := pid,
    node_id := nid, num_tips := 1, clades := [], meta := [] }

/-- A three-node chain: root 0, child 1, grandchild 2. -/
def wrecs : List InitialNode := [wrec 0 0, wrec 1 0, wrec 2 1]

/-- Witness for C1: selecting only the leaf (index 2) of the concrete
three-node chain, the closure output contains an index carrying its
parent's id. -/
theorem closure_completeness_witness :
    ∃ j ∈ add_parents (buildStore wrecs).nodes (buildStore wrecs).child_to_parent [2],
      ((buildStore wrecs).nodes.getD j default).node_id =
        ((buildStore wrecs).nodes.getD 2 default).parent_id :=
  closure_completeness wrecs [2] (by decide) (by decide) 2 (by decide) (by decide)

/-! ## Viewport-filter lemmas (claim C8) -/

theorem foldl_min_mem : ∀ (xs : List ℚ) (x : ℚ), xs.foldl min x ∈ x :: xs := by
  intro xs
  induction xs with
  | nil => intro x; simp
  | cons z zs ih =>
    intro x
    rw [List.foldl_cons]
    have h := ih (min x z)
    rcases List.mem_cons.mp h with h | h
    · rcases min_choice x z with hc | hc
      · exact List.mem_cons.mpr (Or.inl (h.trans hc))
      · exact List.mem_cons.mpr (Or.inr (List.mem_cons.mpr (Or.inl (h.trans hc))))
    · exact List.mem_cons.mpr (Or.inr (List.mem_cons.mpr (Or.inr h)))

theorem foldl_min_le : ∀ (xs : List ℚ) (x : ℚ), ∀ y ∈ x :: xs, xs.foldl min x ≤ y := by
  intro xs
  induction xs with
  | nil =>
    intro x y hy
    simp at hy
    simp [hy]
  | cons z zs ih =>
    intro x y hy
    have hhead : zs.foldl min (min x z) ≤ min x z :=
      ih (min x z) (min x z) (List.mem_cons_self _ _)
    rcases List.mem_cons.mp hy with hy | hy
    · subst hy
      exact le_trans (by simpa [List.foldl_cons] using hhead) (min_le_left _ _)
    · rcases List.mem_cons.mp hy with hy | hy
      · subst hy
        exact le_trans (by simpa [List.foldl_cons] using hhead) (min_le_right _ _)
      · simpa [List.foldl_cons] using ih (min x z) y (List.mem_cons_of_mem _ hy)

theorem foldl_max_mem : ∀ (xs : List ℚ) (x : ℚ), xs.foldl max x ∈ x :: xs := by
  intro xs
  induction xs with
  | nil => intro x; simp
  | cons z zs ih =>
    intro x
    rw [List.foldl_cons]
    have h := ih (max x z)
    rcases List.mem_cons.mp h with h | h
    · rcases max_choice x z with hc | hc
      · exact List.mem_cons.mpr (Or.inl (h.trans hc))
      · exact List.mem_cons.mpr (Or.inr (List.mem_cons.mpr (Or.inl (h.trans hc))))
    · exact List.mem_cons.mpr (Or.inr (List.mem_cons.mpr (Or.inr h)))

theorem foldl_le_max : ∀ (xs : List ℚ) (x : ℚ), ∀ y ∈ x :: xs, y ≤ xs.foldl max x := by
  intro xs
  induction xs with
  | nil =>
    intro x y hy
    simp at hy
    simp [hy]
  | cons z zs ih =>
    intro x y hy
    have hhead : max x z ≤ zs.foldl max (max x z) :=
      ih (max x z) (max x z) (List.mem_cons_self _ _)
    rcases List.mem_cons.mp hy with hy | hy
    · subst hy
      exact le_trans (le_max_left _ _) (by simpa [List.foldl_cons] using hhead)
    · rcases List.mem_cons.mp hy with hy | hy
      · subst hy
        exact le_trans (le_max_right _ _) (by simpa [List.foldl_cons] using hhead)
      · simpa [List.foldl_cons] using ih (max x z) y (List.mem_cons_of_mem _ hy)

/-- C8: `filter_nodes` returns exactly the indices of stored nodes with
`min_y ≤ y ≤ max_y`, inclusive on both ends; membership is unchanged for
any store with the same vertical coordinates (no horizontal coordinate or
`min_x`/`max_x` is consulted); and on a nonempty store the defaults used
for omitted `min_y`/`max_y` are the dataset's actual extreme `y` values. -/
theorem viewport_filter_semantics (nodes : List Node) (a b : ℚ) :
    (∀ i : ℕ, i ∈ filter_nodes nodes a b ↔
      ∃ nd, nodes[i]? = some nd ∧ a ≤ nd.y ∧ nd.y ≤ b)
    ∧ (∀ nodes' : List Node, nodes.map (fun n => n.y) = nodes'.map (fun n => n.y) →
        filter_nodes nodes a b = filter_nodes nodes' a b)
    ∧ (nodes ≠ [] →
        ∃ mn mx : ℚ, minimumOf (nodes.map (fun n => n.y)) = some mn ∧
          maximumOf (nodes.map (fun n => n.y)) = some mx ∧
          mn ∈ nodes.map (fun n => n.y) ∧ mx ∈ nodes.map (fun n => n.y) ∧
          (∀ y ∈ nodes.map (fun n => n.y), mn ≤ y ∧ y ≤ mx) ∧
          dataMinY nodes = mn ∧ dataMaxY nodes = mx) := by
  refine ⟨?_, ?_, ?_⟩
  · intro i
    unfold filter_nodes
    rw [List.mem_filter, List.mem_range]
    constructor
    · rintro ⟨hlt, hp⟩
      refine ⟨nodes.getD i default, ?_, ?_⟩
      · rw [List.getD_eq_getElem _ _ hlt]
        exact List.getElem?_eq_getElem hlt
      · simpa using hp
    · rintro ⟨nd, hsome, h1, h2⟩
      have hlt : i < nodes.length := by
        by_contra hge
        rw [List.getElem?_eq_none (by omega)] at hsome
        cases hsome
      have hnd : nodes.getD i default = nd := by
        rw [List.getD_eq_getElem _ _ hlt]
        have := List.getElem?_eq_getElem hlt
        rw [this] at hsome
        cases hsome
        rfl
      exact ⟨hlt, by simp [List.getD_eq_getElem?_getD, hsome, h1, h2]⟩
  · intro nodes' hmap
    have hlen : nodes.length = nodes'.length := by
      have := congrArg List.length hmap
      simpa using this
    unfold filter_nodes
    rw [hlen]
    apply List.filter_congr
    intro i hir
    have hilt' : i < nodes'.length := List.mem_range.mp hir
    have hilt : i < nodes.length := hlen ▸ hilt'
    have hy : (nodes.getD i default).y = (nodes'.getD i default).y := by
      rw [List.getD_eq_getElem _ _ hilt, List.getD_eq_getElem _ _ hilt']
      have h1 := congrArg (fun l => l[i]?) hmap
      simp only [List.getElem?_map, List.getElem?_eq_getElem, hilt, hilt',
        Option.map_some] at h1
      exact Option.some.inj h1
    rw [hy]
  · intro hne
    cases hn : nodes.map (fun n => n.y) with
    | nil =>
      exfalso
      apply hne
      cases nodes with
      | nil => rfl
      | cons _ _ => simp at hn
    | cons x xs =>
      refine ⟨xs.foldl min x, xs.foldl max x, by simp [minimumOf], by simp [maximumOf],
        foldl_min_mem xs x, foldl_max_mem xs x, ?_, ?_, ?_⟩
      · intro y hy
        exact ⟨foldl_min_le xs x y hy, foldl_le_max xs x y hy⟩
      · unfold dataMinY
        rw [hn]
        simp [minimumOf]
      · unfold dataMaxY
        rw [hn]
        simp [maximumOf]

/-- Witness for C8 on a concrete two-node store. -/
theorem viewport_filter_semantics_witness :
    ∃ mn mx : ℚ, minimumOf ([cnA, cnB].map (fun n => n.y)) = some mn ∧
      maximumOf ([cnA, cnB].map (fun n => n.y)) = some mx ∧
      mn ∈ [cnA, cnB].map (fun n => n.y) ∧ mx ∈ [cnA, cnB].map (fun n => n.y) ∧
      (∀ y ∈ [cnA, cnB].map (fun n => n.y), mn ≤ y ∧ y ≤ mx) ∧
      dataMinY [cnA, cnB] = mn ∧ dataMaxY [cnA, cnB] = mx :=
  (viewport_filter_semantics [cnA, cnB] 0 1).2.2 (by decide)

/-! ## Load error-handling lemmas (claims C6, C7) -/

theorem parseNodes_ok_iff (pn : String → Except String InitialNode) :
    ∀ (rest : List String),
      exOk (parseNodes pn rest) = true ↔ ∀ l ∈ rest, exOk (pn l) = true := by
  intro rest
  induction rest with
  | nil => simp [parseNodes, exOk]
  | cons l t ih =>
    simp only [parseNodes]
    cases hl : pn l with
    | error e =>
      simp only [exOk]
      constructor
      · intro hc; cases hc
      · intro hall
        have hthis := hall l (List.mem_cons_self _ _)
        rw [hl] at hthis
        simp [exOk] at hthis
    | ok r =>
      cases ht : parseNodes pn t with
      | error e =>
        rw [ht] at ih
        simp only [exOk] at ih ⊢
        constructor
        · intro hc; cases hc
        · intro hall
          exact ih.mpr fun s hs => hall s (List.mem_cons_of_mem _ hs)
      | ok rs =>
        rw [ht] at ih
        simp only [exOk] at ih ⊢
        constructor
        · intro _ s hs
          rcases List.mem_cons.mp hs with hs | hs
          · subst hs
            simp [hl, exOk]
          · exact ih.mp trivial s hs
        · intro _
          trivial

theorem parseNodes_length (pn : String → Except String InitialNode) :
    ∀ (rest : List String) (recs : List InitialNode),
      parseNodes pn rest = .ok recs → recs.length = rest.length := by
  intro rest
  induction rest with
  | nil => intro recs h; simp [parseNodes] at h; simp [← h]
  | cons l t ih =>
    intro recs h
    simp only [parseNodes] at h
    cases hl : pn l with
    | error e => rw [hl] at h; cases h
    | ok r =>
      rw [hl] at h
      cases ht : parseNodes pn t with
      | error e => rw [ht] at h; cases h
      | ok rs =>
        rw [ht] at h
        cases h
        simp [ih rs ht]

/-- Success of `load_data` depends only on nonemptiness of the stream and
parseability of every line. -/
theorem load_isOk_iff {α : Type} (pm : String → Except String α)
    (pn : String → Except String InitialNode) (ml : String) (rest : List String) :
    exOk (load_data pm pn (ml :: rest)) = true ↔
      exOk (pm ml) = true ∧ ∀ l ∈ rest, exOk (pn l) = true := by
  simp only [load_data]
  cases hm : pm ml with
  | error e =>
    simp only [exOk]
    constructor
    · intro hc; cases hc
    · rintro ⟨h1, _⟩; cases h1
  | ok md =>
    cases hp : parseNodes pn rest with
    | error e =>
      have h := parseNodes_ok_iff pn rest
      rw [hp] at h
      simp only [exOk] at h ⊢
      constructor
      · intro hc; cases hc
      · rintro ⟨_, hall⟩
        exact h.mpr hall
    | ok recs =>
      have h := parseNodes_ok_iff pn rest
      rw [hp] at h
      simp only [exOk] at h ⊢
      constructor
      · intro _
        exact ⟨trivial, h.mp trivial⟩
      · intro _
        trivial

/-- C6: load is all-or-nothing — the empty stream is rejected with the
`"Empty file"` error; a nonempty stream loads successfully exactly when the
metadata line and every node line parse; and whenever load succeeds, every
input line was consumed and the returned store is built from the full
parsed record list (never a partial one). -/
theorem load_all_or_nothing {α : Type} (pm : String → Except String α)
    (pn : String → Except String InitialNode) :
    (load_data pm pn [] = .error "Empty file")
    ∧ (∀ (ml : String) (rest : List String),
        exOk (load_data pm pn (ml :: rest)) = true ↔
          exOk (pm ml) = true ∧ ∀ l ∈ rest, exOk (pn l) = true)
    ∧ (∀ (lines : List String) (md : α) (st : Store),
        load_data pm pn lines = .ok (md, st) →
        ∃ ml rest recs, lines = ml :: rest ∧ parseNodes pn rest = .ok recs ∧
          recs.length = rest.length ∧ st = buildStore recs) := by
  refine ⟨rfl, load_isOk_iff pm pn, ?_⟩
  intro lines md st h
  cases lines with
  | nil => cases h
  | cons ml rest =>
    simp only [load_data] at h
    cases hm : pm ml with
    | error e => rw [hm] at h; cases h
    | ok md' =>
      rw [hm] at h
      cases hp : parseNodes pn rest with
      | error e => rw [hp] at h; cases h
      | ok recs =>
        rw [hp] at h
        cases h
        exact ⟨ml, rest, recs, rfl, hp, parseNodes_length pn rest recs hp, rfl⟩

/-- A trivially succeeding metadata parser for witnesses. -/
def pm0 : String → Except String Unit := fun _ => .ok ()

/-- A node-line parser for witnesses: the line `"bad"` fails, `"r0"` parses
to the root record, anything else to a child of the root with id 1. -/
def pn0 : String → Except String InitialNode := fun s =>
  if s = "bad" then .error "bad node"
  else if s = "r0" then .ok (wrec 0 0) else .ok (wrec 1 0)

/-- Witness for C6: the empty stream errors, and a fully parseable stream
loads. -/
theorem load_all_or_nothing_witness :
    load_data pm0 pn0 ([] : List String) = .error "Empty file"
    ∧ exOk (load_data pm0 pn0 ["m", "r0", "r1"]) = true := by
  have h := load_all_or_nothing pm0 pn0
  exact ⟨h.1, (h.2.1 "m" ["r0", "r1"]).mpr ⟨by decide, by decide⟩⟩

/-- C7 counterexample: the code does not detect either invariant violation.
A stream whose node lines carry a duplicate `node_id` loads successfully
(no refusal), even though the stored ids are not pairwise distinct; and on
a store where a node's `parent_id` (5) resolves to nothing, `add_parents`
silently returns that node as the whole response — serving from the
inconsistent store instead of refusing. -/
theorem invariant_violation_counterexample :
    exOk (load_data pm0 pn0 ["m", "r0", "r1", "r1"]) = true
    ∧ ¬ (((buildStore [wrec 0 0, wrec 1 0, wrec 1 0]).nodes.map
          (fun nd => nd.node_id)).Nodup)
    ∧ add_parents (buildStore [wrec 0 0, wrec 2 5]).nodes
        (buildStore [wrec 0 0, wrec 2 5]).child_to_parent [1] = [1] := by
  refine ⟨by decide, by decide, by decide⟩

/-- C7 amended: the system performs no invariant-violation detection.
Load success depends only on stream nonemptiness and per-line parseability,
so records with duplicate `node_id`s are accepted and served; and when a
selected id's parent lookup fails during closure (a `parent_id` resolving
to nothing), the work-list loop silently skips it and continues, the store
remaining in service. -/
theorem invariant_violation_amended {α : Type} (pm : String → Except String α)
    (pn : String → Except String InitialNode) (ml : String) (rest : List String)
    (c2p : List (ℤ × ℤ)) (fuel : ℕ) (sel : Finset ℤ) (id : ℤ) (l : List ℤ)
    (hnone : alookup id c2p = none) :
    (exOk (load_data pm pn (ml :: rest)) = true ↔
      exOk (pm ml) = true ∧ ∀ s ∈ rest, exOk (pn s) = true)
    ∧ addParentsGo c2p (fuel + 1) sel (id :: l) = addParentsGo c2p fuel sel l := by
  refine ⟨load_isOk_iff pm pn ml rest, ?_⟩
  simp [addParentsGo, hnone]

/-- Witness for C7's amended statement at concrete inputs. -/
theorem invariant_violation_amended_witness :
    (exOk (load_data pm0 pn0 ("m" :: ["r0"])) = true ↔
      exOk (pm0 "m") = true ∧ ∀ s ∈ ["r0"], exOk (pn0 s) = true)
    ∧ addParentsGo [((2 : ℤ), (5 : ℤ))] (0 + 1) {7} (7 :: []) =
        addParentsGo [((2 : ℤ), (5 : ℤ))] 0 {7} [] :=
  invariant_violation_amended pm0 pn0 "m" ["r0"] [((2 : ℤ), (5 : ℤ))] 0 {7} 7 []
    (by decide)

/-! ## Dictionary lemmas (claims C5, C10) -/

/-- Well-formedness of one dictionary map: codes are pairwise distinct and
lie in `[0, size)` — maintained because a fresh value always receives the
current size as its code. -/
def GoodMap (m : List (String × ℤ)) : Prop :=
  (m.map Prod.snd).Nodup ∧ ∀ p ∈ m, 0 ≤ p.2 ∧ p.2 < (m.length : ℤ)

theorem goodMap_nil : GoodMap [] := by simp [GoodMap]

theorem encodeVal_lookup (m : List (String × ℤ)) (s : String) :
    alookup s (encodeVal m s).2 = some (encodeVal m s).1 := by
  unfold encodeVal
  cases h : alookup s m with
  | some c => simpa using h
  | none =>
    simp only
    rw [alookup_append, h]
    simp [alookup]

theorem encodeVal_mono (m : List (String × ℤ)) (s s' : String) (c' : ℤ)
    (h : alookup s' m = some c') : alookup s' (encodeVal m s).2 = some c' := by
  unfold encodeVal
  cases hh : alookup s m with
  | some c => simpa using h
  | none =>
    simp only
    rw [alookup_append, h]

theorem encodeVal_good (m : List (String × ℤ)) (s : String) (h : GoodMap m) :
    GoodMap (encodeVal m s).2 := by
  unfold encodeVal
  cases hh : alookup s m with
  | some c => simpa using h
  | none =>
    simp only
    constructor
    · rw [List.map_append, List.nodup_append]
      refine ⟨h.1, by simp, ?_⟩
      intro c hc hc2
      simp only [List.map_cons, List.map_nil, List.mem_cons, List.not_mem_nil,
        or_false] at hc2
      rcases List.mem_map.mp hc with ⟨p, hp, hpc⟩
      have := (h.2 p hp).2
      rw [hpc, hc2] at this
      exact absurd this (lt_irrefl _)
    · intro p hp
      rcases List.mem_append.mp hp with hp | hp
      · have := h.2 p hp
        constructor
        · exact this.1
        · have hlen : ((m ++ [(s, (m.length : ℤ))]).length : ℤ) = (m.length : ℤ) + 1 := by
            simp
          rw [hlen]
          exact lt_trans this.2 (by linarith)
      · simp only [List.mem_cons, List.not_mem_nil, or_false] at hp
        subst hp
        constructor
        · simp
        · simp

theorem invertMap_lookup :
    ∀ (m : List (String × ℤ)), (m.map Prod.snd).Nodup →
      ∀ {s : String} {c : ℤ}, (s, c) ∈ m → alookup c (invertMap m) = some s := by
  intro m
  induction m with
  | nil => intro _ _ _ h; simp at h
  | cons p t ih =>
    intro hnd s c hmem
    rcases List.mem_cons.mp hmem with h | h
    · rw [← h]
      simp [invertMap, alookup]
    · have hne : p.2 ≠ c := by
        intro hc
        have hmem2 : c ∈ t.map Prod.snd := List.mem_map.mpr ⟨(s, c), h, rfl⟩
        rw [List.map_cons] at hnd
        exact (List.nodup_cons.mp hnd).1 (hc ▸ hmem2)
      simp only [invertMap, List.map_cons, alookup, hne, if_neg, not_false_iff]
      have hnd2 : (t.map Prod.snd).Nodup := by
        rw [List.map_cons] at hnd
        exact (List.nodup_cons.mp hnd).2
      exact ih hnd2 h

theorem encodeVal_origin (m : List (String × ℤ)) (s : String) :
    ∀ p ∈ (encodeVal m s).2, p ∈ m ∨ p.1 = s := by
  unfold encodeVal
  cases hh : alookup s m with
  | some c =>
    intro p hp
    exact Or.inl (by simpa using hp)
  | none =>
    simp only
    intro p hp
    rcases List.mem_append.mp hp with hp | hp
    · exact Or.inl hp
    · simp only [List.mem_cons, List.not_mem_nil, or_false] at hp
      subst hp
      exact Or.inr rfl

theorem encodeMeta_len (rm : List (String × String)) :
    ∀ (keys : List String) (maps : List (List (String × ℤ))),
      maps.length = keys.length →
      (encodeMeta keys maps rm).1.length = keys.length ∧
        (encodeMeta keys maps rm).2.length = keys.length := by
  intro keys
  induction keys with
  | nil =>
    intro maps h
    simp only [encodeMeta]
    exact ⟨rfl, by simpa using h⟩
  | cons k ks ih =>
    intro maps h
    cases maps with
    | nil => simp at h
    | cons m ms =>
      have hms := ih ms (by simpa using h)
      simp only [encodeMeta]
      cases hk : alookup k rm with
      | some v => simp [hms.1, hms.2]
      | none => simp [hms.1, hms.2]

theorem encodeMeta_col_present (rm : List (String × String)) :
    ∀ (keys : List String) (maps : List (List (String × ℤ))) (i : ℕ)
      (k : String) (m : List (String × ℤ)) (v : String),
      maps.length = keys.length → keys[i]? = some k → maps[i]? = some m →
      alookup k rm = some v →
      (encodeMeta keys maps rm).1[i]? = some (encodeVal m v).1 ∧
        (encodeMeta keys maps rm).2[i]? = some (encodeVal m v).2 := by
  intro keys
  induction keys with
  | nil => intro maps i k m v _ hk _ _; simp at hk
  | cons k0 ks ih =>
    intro maps i k m v hlen hk hm hrm
    cases maps with
    | nil => simp at hlen
    | cons m0 ms =>
      cases i with
      | zero =>
        simp only [List.getElem?_cons_zero, Option.some.injEq] at hk hm
        subst hk
        subst hm
        simp only [encodeMeta, hrm]
        simp
      | succ n =>
        simp only [List.getElem?_cons_succ] at hk hm
        have hrec := ih ms n k m v (by simpa using hlen) hk hm hrm
        simp only [encodeMeta]
        cases hk0 : alookup k0 rm with
        | some v0 => simp [hrec.1, hrec.2]
        | none => simp [hrec.1, hrec.2]

theorem encodeMeta_col_absent (rm : List (String × String)) :
    ∀ (keys : List String) (maps : List (List (String × ℤ))) (i : ℕ)
      (k : String) (m : List (String × ℤ)),
      maps.length = keys.length → keys[i]? = some k → maps[i]? = some m →
      alookup k rm = none →
      (encodeMeta keys maps rm).1[i]? = some (-1) ∧
        (encodeMeta keys maps rm).2[i]? = some m := by
  intro keys
  induction keys with
  | nil => intro maps i k m _ hk _ _; simp at hk
  | cons k0 ks ih =>
    intro maps i k m hlen hk hm hrm
    cases maps with
    | nil => simp at hlen
    | cons m0 ms =>
      cases i with
      | zero =>
        simp only [List.getElem?_cons_zero, Option.some.injEq] at hk hm
        subst hk
        subst hm
        simp only [encodeMeta, hrm]
        simp
      | succ n =>
        simp only [List.getElem?_cons_succ] at hk hm
        have hrec := ih ms n k m (by simpa using hlen) hk hm hrm
        simp only [encodeMeta]
        cases hk0 : alookup k0 rm with
        | some v0 => simp [hrec.1, hrec.2]
        | none => simp [hrec.1, hrec.2]

theorem encodeMeta_mono (rm : List (String × String)) (keys : List String)
    (maps : List (List (String × ℤ))) (hlen : maps.length = keys.length)
    (i : ℕ) (m m' : List (String × ℤ)) (hm : maps[i]? = some m)
    (hm' : (encodeMeta keys maps rm).2[i]? = some m')
    (s : String) (c : ℤ) (hl : alookup s m = some c) : alookup s m' = some c := by
  have hilt : i < maps.length := by
    by_contra hge
    rw [List.getElem?_eq_none (by omega)] at hm
    cases hm
  have hik : i < keys.length := hlen ▸ hilt
  have hk : keys[i]? = some keys[i] := List.getElem?_eq_getElem hik
  cases hrm : alookup keys[i] rm with
  | some v =>
    have hcol := encodeMeta_col_present rm keys maps i _ m v hlen hk hm hrm
    rw [hcol.2] at hm'
    cases hm'
    exact encodeVal_mono m v s c hl
  | none =>
    have hcol := encodeMeta_col_absent rm keys maps i _ m hlen hk hm hrm
    rw [hcol.2] at hm'
    cases hm'
    exact hl

theorem encodeMeta_good (rm : List (String × String)) (keys : List String)
    (maps : List (List (String × ℤ))) (hlen : maps.length = keys.length)
    (i : ℕ) (m m' : List (String × ℤ)) (hm : maps[i]? = some m)
    (hm' : (encodeMeta keys maps rm).2[i]? = some m')
    (hg : GoodMap m) : GoodMap m' := by
  have hilt : i < maps.length := by
    by_contra hge
    rw [List.getElem?_eq_none (by omega)] at hm
    cases hm
  have hik : i < keys.length := hlen ▸ hilt
  have hk : keys[i]? = some keys[i] := List.getElem?_eq_getElem hik
  cases hrm : alookup keys[i] rm with
  | some v =>
    have hcol := encodeMeta_col_present rm keys maps i _ m v hlen hk hm hrm
    rw [hcol.2] at hm'
    cases hm'
    exact encodeVal_good m v hg
  | none =>
    have hcol := encodeMeta_col_absent rm keys maps i _ m hlen hk hm hrm
    rw [hcol.2] at hm'
    cases hm'
    exact hg

theorem encodeMeta_origin (rm : List (String × String)) (keys : List String)
    (maps : List (List (String × ℤ))) (hlen : maps.length = keys.length)
    (i : ℕ) (k : String) (m m' : List (String × ℤ)) (hk : keys[i]? = some k)
    (hm : maps[i]? = some m) (hm' : (encodeMeta keys maps rm).2[i]? = some m') :
    ∀ p ∈ m', p ∈ m ∨ ∃ v, alookup k rm = some v ∧ p.1 = v := by
  cases hrm : alookup k rm with
  | some v =>
    have hcol := encodeMeta_col_present rm keys maps i k m v hlen hk hm hrm
    rw [hcol.2] at hm'
    cases hm'
    intro p hp
    rcases encodeVal_origin m v p hp with h | h
    · exact Or.inl h
    · exact Or.inr ⟨v, rfl, h⟩
  | none =>
    have hcol := encodeMeta_col_absent rm keys maps i k m hlen hk hm hrm
    rw [hcol.2] at hm'
    cases hm'
    intro p hp
    exact Or.inl hp

/-! ## Load-loop fold lemmas for the dictionaries -/

theorem loadStep_maps (keys : List String) (st : LoadState) (r : InitialNode) :
    (loadStep keys st r).metadata_maps = (encodeMeta keys st.metadata_maps r.meta).2 := by
  by_cases hr : r.parent_id = r.node_id <;> simp [loadStep, hr]

theorem loadStep_nodes (keys : List String) (st : LoadState) (r : InitialNode) :
    ∃ nd : Node, (loadStep keys st r).nodes = st.nodes ++ [nd] ∧
      nd.node_id = r.node_id ∧ nd.parent_id = r.parent_id ∧
      nd.meta = (encodeMeta keys st.metadata_maps r.meta).1 := by
  by_cases hr : r.parent_id = r.node_id
  · refine ⟨
      { name := r.name, x_dist := r.x_dist, y := r.y, mutations := [],
        parent_id := r.parent_id, node_id := r.node_id, num_tips := r.num_tips,
        clades := r.clades, meta := (encodeMeta keys st.metadata_maps r.meta).1 },
      ?_, rfl, rfl, rfl⟩
    simp only [loadStep, if_pos hr]
  · refine ⟨
      { name := r.name, x_dist := r.x_dist, y := r.y, mutations := r.mutations,
        parent_id := r.parent_id, node_id := r.node_id, num_tips := r.num_tips,
        clades := r.clades, meta := (encodeMeta keys st.metadata_maps r.meta).1 },
      ?_, rfl, rfl, rfl⟩
    simp only [loadStep, if_neg hr]

theorem foldl_maps_len (keys : List String) :
    ∀ (rs : List InitialNode) (st : LoadState),
      st.metadata_maps.length = keys.length →
      (rs.foldl (loadStep keys) st).metadata_maps.length = keys.length := by
  intro rs
  induction rs with
  | nil => intro st h; simpa
  | cons r t ih =>
    intro st h
    simp only [List.foldl_cons]
    apply ih
    rw [loadStep_maps]
    exact (encodeMeta_len r.meta keys st.metadata_maps h).2

theorem foldl_maps_good (keys : List String) :
    ∀ (rs : List InitialNode) (st : LoadState),
      st.metadata_maps.length = keys.length →
      (∀ (i : ℕ) (m : List (String × ℤ)), st.metadata_maps[i]? = some m → GoodMap m) →
      ∀ (i : ℕ) (m : List (String × ℤ)),
        (rs.foldl (loadStep keys) st).metadata_maps[i]? = some m → GoodMap m := by
  intro rs
  induction rs with
  | nil => intro st _ hg; simpa using hg
  | cons r t ih =>
    intro st h hg
    simp only [List.foldl_cons]
    apply ih
    · rw [loadStep_maps]
      exact (encodeMeta_len r.meta keys st.metadata_maps h).2
    · intro i m' hm'
      rw [loadStep_maps] at hm'
      have hilt : i < keys.length := by
        have hl2 := (encodeMeta_len r.meta keys st.metadata_maps h).2
        by_contra hge
        rw [List.getElem?_eq_none (by omega)] at hm'
        cases hm'
      obtain ⟨m, hm⟩ : ∃ m, st.metadata_maps[i]? = some m := by
        rw [List.getElem?_eq_getElem (show i < st.metadata_maps.length by omega)]
        exact ⟨_, rfl⟩
      exact encodeMeta_good r.meta keys st.metadata_maps h i m m' hm hm'
        (hg i m hm)

theorem foldl_maps_mono (keys : List String) :
    ∀ (rs : List InitialNode) (st : LoadState),
      st.metadata_maps.length = keys.length →
      ∀ (i : ℕ) (m m' : List (String × ℤ)) (s : String) (c : ℤ),
        st.metadata_maps[i]? = some m →
        (rs.foldl (loadStep keys) st).metadata_maps[i]? = some m' →
        alookup s m = some c → alookup s m' = some c := by
  intro rs
  induction rs with
  | nil =>
    intro st _ i m m' s c hm hm' hl
    simp only [List.foldl_nil] at hm'
    rw [hm] at hm'
    cases hm'
    exact hl
  | cons r t ih =>
    intro st h i m m' s c hm hm' hl
    simp only [List.foldl_cons] at hm'
    have hilt : i < st.metadata_maps.length := by
      by_contra hge
      rw [List.getElem?_eq_none (by omega)] at hm
      cases hm
    have hlen' : (loadStep keys st r).metadata_maps.length = keys.length := by
      rw [loadStep_maps]
      exact (encodeMeta_len r.meta keys st.metadata_maps h).2
    obtain ⟨mmid, hmid⟩ : ∃ mm, (loadStep keys st r).metadata_maps[i]? = some mm := by
      rw [List.getElem?_eq_getElem
        (show i < (loadStep keys st r).metadata_maps.length by omega)]
      exact ⟨_, rfl⟩
    have hstep : alookup s mmid = some c := by
      apply encodeMeta_mono r.meta keys st.metadata_maps h i m mmid hm _ s c hl
      rw [← loadStep_maps]
      exact hmid
    exact ih (loadStep keys st r) hlen' i mmid m' s c hmid hm' hstep

theorem foldl_nodes_getelem (keys : List String) :
    ∀ (rs : List InitialNode) (st : LoadState) (i : ℕ) (x : Node),
      st.nodes[i]? = some x → (rs.foldl (loadStep keys) st).nodes[i]? = some x := by
  intro rs
  induction rs with
  | nil => intro st i x h; simpa using h
  | cons r t ih =>
    intro st i x h
    simp only [List.foldl_cons]
    apply ih
    obtain ⟨nd, hnd, -, -, -⟩ := loadStep_nodes keys st r
    rw [hnd]
    have hilt : i < st.nodes.length := by
      by_contra hge
      rw [List.getElem?_eq_none (by omega)] at h
      cases h
    rw [List.getElem?_append, if_pos hilt]
    exact h

theorem foldl_nodes_len (keys : List String) :
    ∀ (rs : List InitialNode) (st : LoadState),
      (rs.foldl (loadStep keys) st).nodes.length = st.nodes.length + rs.length := by
  intro rs
  induction rs with
  | nil => intro st; simp
  | cons r t ih =>
    intro st
    simp only [List.foldl_cons]
    rw [ih]
    obtain ⟨nd, hnd, -, -, -⟩ := loadStep_nodes keys st r
    rw [hnd]
    simp
    omega

/-- Per-record specification of the load loop: the `j`-th record of the
tail run becomes the node at offset `j` past the pre-existing nodes, its
ids are preserved, and each meta entry either round-trips through the final
forward dictionary of its column or is `-1` exactly when the field was
absent. -/
theorem foldl_node_meta (keys : List String) :
    ∀ (rs : List InitialNode) (st : LoadState),
      st.metadata_maps.length = keys.length →
      ∀ (j : ℕ) (r : InitialNode), rs[j]? = some r →
      ∃ nd : Node,
        (rs.foldl (loadStep keys) st).nodes[st.nodes.length + j]? = some nd ∧
        nd.node_id = r.node_id ∧ nd.parent_id = r.parent_id ∧
        nd.meta.length = keys.length ∧
        ∀ (i : ℕ) (k : String), keys[i]? = some k →
          ((∃ (v : String) (c : ℤ) (m : List (String × ℤ)),
              alookup k r.meta = some v ∧ nd.meta[i]? = some c ∧
              (rs.foldl (loadStep keys) st).metadata_maps[i]? = some m ∧
              alookup v m = some c)
           ∨ (alookup k r.meta = none ∧ nd.meta[i]? = some (-1))) := by
  intro rs
  induction rs with
  | nil => intro st _ j r hj; simp at hj
  | cons r0 t ih =>
    intro st hlen j r hj
    obtain ⟨nd0, hnd0, hid0, hpid0, hmeta0⟩ := loadStep_nodes keys st r0
    have hlen' : (loadStep keys st r0).metadata_maps.length = keys.length := by
      rw [loadStep_maps]
      exact (encodeMeta_len r0.meta keys st.metadata_maps hlen).2
    cases j with
    | zero =>
      simp only [List.getElem?_cons_zero, Option.some.injEq] at hj
      subst hj
      refine ⟨nd0, ?_, hid0, hpid0, ?_, ?_⟩
      · simp only [List.foldl_cons]
        apply foldl_nodes_getelem keys t (loadStep keys st r0)
        rw [hnd0]
        simp [List.getElem?_concat_length]
      · rw [hmeta0]
        exact (encodeMeta_len r0.meta keys st.metadata_maps hlen).1
      · intro i k hk
        have hik : i < keys.length := by
          by_contra hge
          rw [List.getElem?_eq_none (by omega)] at hk
          cases hk
        obtain ⟨mi, hmi⟩ : ∃ mm, st.metadata_maps[i]? = some mm := by
          rw [List.getElem?_eq_getElem (show i < st.metadata_maps.length by omega)]
          exact ⟨_, rfl⟩
        cases hrm : alookup k r0.meta with
        | some v =>
          left
          have hcol := encodeMeta_col_present r0.meta keys st.metadata_maps i k mi v
            hlen hk hmi hrm
          obtain ⟨mf, hmf⟩ : ∃ mm,
              (List.foldl (loadStep keys) st (r0 :: t)).metadata_maps[i]? = some mm := by
            rw [List.getElem?_eq_getElem
              (show i < (List.foldl (loadStep keys) st (r0 :: t)).metadata_maps.length by
                rw [foldl_maps_len keys (r0 :: t) st hlen]; omega)]
            exact ⟨_, rfl⟩
          refine ⟨v, (encodeVal mi v).1, mf, rfl, ?_, hmf, ?_⟩
          · rw [hmeta0]
            exact hcol.1
          · have hmid : (loadStep keys st r0).metadata_maps[i]? =
                some (encodeVal mi v).2 := by
              rw [loadStep_maps]
              exact hcol.2
            have hfin : (t.foldl (loadStep keys)
                (loadStep keys st r0)).metadata_maps[i]? = some mf := by
              simpa [List.foldl_cons] using hmf
            exact foldl_maps_mono keys t (loadStep keys st r0) hlen' i _ mf v _
              hmid hfin (encodeVal_lookup mi v)
        | none =>
          right
          have hcol := encodeMeta_col_absent r0.meta keys st.metadata_maps i k mi
            hlen hk hmi hrm
          refine ⟨rfl, ?_⟩
          rw [hmeta0]
          exact hcol.1
    | succ n =>
      simp only [List.getElem?_cons_succ] at hj
      obtain ⟨nd, hnd, hid, hpid, hml, hcols⟩ := ih (loadStep keys st r0) hlen' n r hj
      refine ⟨nd, ?_, hid, hpid, hml, ?_⟩
      · have hstlen : (loadStep keys st r0).nodes.length = st.nodes.length + 1 := by
          rw [hnd0]
          simp
        have hidx : st.nodes.length + (n + 1) = (loadStep keys st r0).nodes.length + n := by
          omega
        rw [List.foldl_cons, hidx]
        exact hnd
      · intro i k hk
        have h2 := hcols i k hk
        simpa [List.foldl_cons] using h2

/-- C5: dictionary round-trip — for every record list, every slated column
`i` with key `k`, and every record that carries `k` with value `v`, the
node built from that record stores a code `c` at column `i` such that the
store's inverted (code-to-string) dictionary of column `i` maps `c` back to
exactly `v`. -/
theorem dictionary_round_trip (recs : List InitialNode) (i j : ℕ) (k v : String)
    (r : InitialNode) (hr : recs[j]? = some r)
    (hk : (buildStore recs).metadata_keys[i]? = some k)
    (hv : alookup k r.meta = some v) :
    ∃ (nd : Node) (c : ℤ) (m : List (ℤ × String)),
      (buildStore recs).nodes[j]? = some nd ∧ nd.meta[i]? = some c ∧
      (buildStore recs).metadata_maps[i]? = some m ∧ alookup c m = some v := by
  cases recs with
  | nil => simp at hr
  | cons r0 rs =>
    have hlen0 : (initState (r0.meta.map Prod.fst)).metadata_maps.length =
        (r0.meta.map Prod.fst).length := by simp [initState]
    have hks : (buildStore (r0 :: rs)).metadata_keys = r0.meta.map Prod.fst := by
      simp [buildStore]
    rw [hks] at hk
    obtain ⟨nd, hnd, -, -, hml, hcols⟩ :=
      foldl_node_meta (r0.meta.map Prod.fst) (r0 :: rs)
        (initState (r0.meta.map Prod.fst)) hlen0 j r hr
    have hnd' : (buildStore (r0 :: rs)).nodes[j]? = some nd := by
      have hbn : (buildStore (r0 :: rs)).nodes =
          ((r0 :: rs).foldl (loadStep (r0.meta.map Prod.fst))
            (initState (r0.meta.map Prod.fst))).nodes := by
        simp [buildStore]
      rw [hbn]
      simpa [initState] using hnd
    rcases hcols i k hk with ⟨v', c, m, hv', hc, hm, hlm⟩ | ⟨habs, -⟩
    · rw [hv] at hv'
      cases hv'
      have hg0 : ∀ (i2 : ℕ) (m2 : List (String × ℤ)),
          (initState (r0.meta.map Prod.fst)).metadata_maps[i2]? = some m2 →
            GoodMap m2 := by
        intro i2 m2 h2
        simp only [initState] at h2
        rw [List.getElem?_replicate] at h2
        split at h2
        · cases h2
          exact goodMap_nil
        · cases h2
      have hgood := foldl_maps_good (r0.meta.map Prod.fst) (r0 :: rs)
        (initState (r0.meta.map Prod.fst)) hlen0 hg0 i m hm
      have hinv : alookup c (invertMap m) = some v :=
        invertMap_lookup m hgood.1 (alookup_mem hlm)
      refine ⟨nd, c, invertMap m, hnd', hc, ?_, hinv⟩
      have hbm : (buildStore (r0 :: rs)).metadata_maps =
          (((r0 :: rs).foldl (loadStep (r0.meta.map Prod.fst))
            (initState (r0.meta.map Prod.fst))).metadata_maps).map invertMap := by
        simp [buildStore]
      rw [hbm, List.getElem?_map, hm]
      rfl
    · rw [habs] at hv
      cases hv

/-- Concrete record with one interned field. -/
def mrec (nid pid : ℤ) (kv : List (String × String)) : InitialNode :=
  { name := "", x_dist := 0, y := 0, mutations := [], parent_id := pid,
    node_id := nid, num_tips := 1, clades := [], meta := kv }

/-- Two records sharing the field `country` with distinct values. -/
def wmrecs : List InitialNode :=
  [mrec 0 0 [("country", "uk")], mrec 1 0 [("country", "fr")]]

/-- Witness for C5: the second record's `country` value decodes back from
its stored code. -/
theorem dictionary_round_trip_witness :
    ∃ (nd : Node) (c : ℤ) (m : List (ℤ × String)),
      (buildStore wmrecs).nodes[1]? = some nd ∧ nd.meta[0]? = some c ∧
      (buildStore wmrecs).metadata_maps[0]? = some m ∧ alookup c m = some "fr" :=
  dictionary_round_trip wmrecs 0 1 "country" "fr" (mrec 1 0 [("country", "fr")])
    (by decide) (by decide) (by decide)

/-- C10: rehydration totality — every non-`-1` code stored in any built
node's meta vector is a key of the corresponding column's reverse
dictionary, and the stored string it decodes to is the recorded value of
that column's field on some input record (in the program those strings are
serde serializations of parsed JSON values, so re-parsing them cannot
fail); hence the Response Assembler's decode step is total on every node
the pipeline can select. -/
theorem rehydration_total (recs : List InitialNode) (j i : ℕ) (nd : Node) (c : ℤ)
    (hn : (buildStore recs).nodes[j]? = some nd) (hc : nd.meta[i]? = some c)
    (hne : c ≠ -1) :
    ∃ (m : List (ℤ × String)) (s : String),
      (buildStore recs).metadata_maps[i]? = some m ∧ alookup c m = some s ∧
      ∃ (r : InitialNode) (k : String), r ∈ recs ∧
        (buildStore recs).metadata_keys[i]? = some k ∧ alookup k r.meta = some s := by
  cases recs with
  | nil => simp [buildStore] at hn
  | cons r0 rs =>
    have hlen0 : (initState (r0.meta.map Prod.fst)).metadata_maps.length =
        (r0.meta.map Prod.fst).length := by simp [initState]
    have hks : (buildStore (r0 :: rs)).metadata_keys = r0.meta.map Prod.fst := by
      simp [buildStore]
    have hbn : (buildStore (r0 :: rs)).nodes =
        ((r0 :: rs).foldl (loadStep (r0.meta.map Prod.fst))
          (initState (r0.meta.map Prod.fst))).nodes := by
      simp [buildStore]
    have hnlen : (buildStore (r0 :: rs)).nodes.length = (r0 :: rs).length := by
      rw [hbn, foldl_nodes_len]
      simp [initState]
    have hjlt : j < (r0 :: rs).length := by
      by_contra hge
      rw [List.getElem?_eq_none (by omega)] at hn
      cases hn
    obtain ⟨r, hr⟩ : ∃ r, (r0 :: rs)[j]? = some r :=
      ⟨_, List.getElem?_eq_getElem hjlt⟩
    obtain ⟨nd', hnd', -, -, hml, hcols⟩ :=
      foldl_node_meta (r0.meta.map Prod.fst) (r0 :: rs)
        (initState (r0.meta.map Prod.fst)) hlen0 j r hr
    have hnd'' : (buildStore (r0 :: rs)).nodes[j]? = some nd' := by
      rw [hbn]
      simpa [initState] using hnd'
    rw [hn] at hnd''
    cases hnd''
    have hik : i < (r0.meta.map Prod.fst).length := by
      by_contra hge
      have hnone : nd.meta[i]? = none := List.getElem?_eq_none (by rw [hml]; omega)
      rw [hnone] at hc
      cases hc
    obtain ⟨k, hkk⟩ : ∃ k, (r0.meta.map Prod.fst)[i]? = some k :=
      ⟨_, List.getElem?_eq_getElem hik⟩
    rcases hcols i k hkk with ⟨v, c', m, hv, hc', hm, hlm⟩ | ⟨-, hcneg⟩
    · rw [hc] at hc'
      cases hc'
      have hg0 : ∀ (i2 : ℕ) (m2 : List (String × ℤ)),
          (initState (r0.meta.map Prod.fst)).metadata_maps[i2]? = some m2 →
            GoodMap m2 := by
        intro i2 m2 h2
        simp only [initState] at h2
        rw [List.getElem?_replicate] at h2
        split at h2
        · cases h2
          exact goodMap_nil
        · cases h2
      have hgood := foldl_maps_good (r0.meta.map Prod.fst) (r0 :: rs)
        (initState (r0.meta.map Prod.fst)) hlen0 hg0 i m hm
      have hinv : alookup c (invertMap m) = some v :=
        invertMap_lookup m hgood.1 (alookup_mem hlm)
      have hjmem : r ∈ (r0 :: rs) := by
        rw [List.getElem?_eq_getElem hjlt] at hr
        cases hr
        exact List.getElem_mem hjlt
      refine ⟨invertMap m, v, ?_, hinv, r, k, hjmem, ?_, hv⟩
      · have hbm : (buildStore (r0 :: rs)).metadata_maps =
            (((r0 :: rs).foldl (loadStep (r0.meta.map Prod.fst))
              (initState (r0.meta.map Prod.fst))).metadata_maps).map invertMap := by
          simp [buildStore]
        rw [hbm, List.getElem?_map, hm]
        rfl
      · rw [hks]
        exact hkk
    · rw [hc] at hcneg
      cases hcneg
      exact absurd rfl hne

/-- Witness for C10: the first record's stored code decodes to an original
input value. -/
theorem rehydration_total_witness :
    ∃ (m : List (ℤ × String)) (s : String),
      (buildStore wmrecs).metadata_maps[0]? = some m ∧ alookup 0 m = some s ∧
      ∃ (r : InitialNode) (k : String), r ∈ wmrecs ∧
        (buildStore wmrecs).metadata_keys[0]? = some k ∧ alookup k r.meta = some s :=
  rehydration_total wmrecs 0 0
    { name := "", x_dist := 0, y := 0, mutations := [], parent_id := 0,
      node_id := 0, num_tips := 1, clades := [], meta := [0] } 0
    (by decide) (by decide) (by decide)
